import Mathlib

/-!
Shallow embedding of `update.go` from docker-atlassian-crowd: the
version-resolution pipeline (JSONP unwrapping, package filtering,
major.minor key normalisation, latest-release selection across feeds) and
the build-directory resolver, together with theorems checking the
specification's claims about them.

Strings are modelled as `List Char`; `time.Time` release dates as `Int`
with `After` as strict `<`; Go maps as association lists with Go-map
lookup/assignment semantics; the fallible collaborators (`http.Get`,
`json.Unmarshal`, `ioutil.ReadDir`) as function parameters returning
`Option`/`Except`.
-/

set_option autoImplicit false

namespace CrowdUpdate

/-- Characters matched by the `versionSeparator` regexp `(\.|-)`: a single
`.` or `-` character. -/
def sepChar (c : Char) : Bool := c = '.' || c = '-'

/-- Split off the piece before the first separator character, returning it
together with the remainder after that separator; `none` when the string
contains no separator. -/
def splitFirst : List Char → Option (List Char × List Char)
  | [] => none
  | c :: cs =>
    if sepChar c then some ([], cs)
    else
      match splitFirst cs with
      | none => none
      | some pp => some (c :: pp.1, pp.2)

/-- Go `versionSeparator.Split(s, n)`: split around each match of the
single-character separator regexp, into at most `n` substrings, the last
being the unsplit remainder (`n = 0` gives no substrings). -/
def splitLimit : List Char → Nat → List (List Char)
  | _, 0 => []
  | s, 1 => [s]
  | s, n + 2 =>
    match splitFirst s with
    | none => [s]
    | some pp => pp.1 :: splitLimit pp.2 (n + 1)

/-- `Version.MajorMinor` (update.go lines 157-163): split the raw version
string on `.`/`-` with limit 3; if fewer than two pieces result return
`"0.0"`, otherwise the first two pieces joined by a dot. -/
def MajorMinor (v : List Char) : List Char :=
  match splitLimit v 3 with
  | p0 :: p1 :: _ => p0 ++ '.' :: p1
  | _ => ['0', '.', '0']

/-- A release record from a feed (`Package` in update.go).  The release
date is modelled as an integer timestamp; `Released.After` is strict `<`
on it. -/
structure Package where
  zipUrl : List Char
  version : List Char
  released : Int
  latest : Bool
deriving Repr, DecidableEq

/-- Go `path.Base`: strip trailing slashes and keep the part after the
last remaining slash; `"."` for the empty path, `"/"` for an all-slash
path. -/
def pathBase (p : List Char) : List Char :=
  if p = [] then ['.']
  else
    let q := (p.reverse.dropWhile (fun c => c == '/')).reverse
    let r := (q.reverse.takeWhile (fun c => c != '/')).reverse
    if r = [] then ['/'] else r

/-- Go `strings.Contains(s, substr)`: `substr` occurs contiguously within
`s`. -/
def containsSub (s substr : List Char) : Bool := decide (substr <:+: s)

/-- The relevance test from the loop of `fetchLatestTarVersions`
(update.go lines 131-134): the negation of the `continue` condition on the
archive filename. -/
def relevantFile (filename : List Char) : Bool :=
  !(!(containsSub filename ".tar.gz".toList) ||
    (containsSub filename "enterprise".toList && !(containsSub filename "standalone".toList)) ||
    containsSub filename "cluster".toList ||
    containsSub filename "war".toList)

/-- The package filter: the relevance test applied to the last path
segment of the package's archive URL (update.go line 130). -/
def relevantPackage (p : Package) : Bool := relevantFile (pathBase p.zipUrl)

/-- The `map[string]Package` of update.go, as an association list with
unique keys. -/
abbrev VMap := List (List Char × Package)

/-- Go map lookup `versions[k]`. -/
def mapLookup : VMap → List Char → Option Package
  | [], _ => none
  | kp :: rest, k => if kp.1 = k then some kp.2 else mapLookup rest k

/-- Go map assignment `versions[k] = p`: replace the entry for `k` when
present, otherwise add one. -/
def mapInsert : VMap → List Char → Package → VMap
  | [], k, p => [(k, p)]
  | kp :: rest, k, p => if kp.1 = k then (k, p) :: rest else kp :: mapInsert rest k p

/-- One iteration of the selection loop in `fetchLatestTarVersions`
(update.go lines 129-142): skip irrelevant archives, then insert the
archive under its major.minor key unless an entry with a release date not
strictly earlier is already present. -/
def selectStep (versions : VMap) (archive : Package) : VMap :=
  if !relevantFile (pathBase archive.zipUrl) then versions
  else
    let majmin := MajorMinor archive.version
    match mapLookup versions majmin with
    | none => mapInsert versions majmin archive
    | some v => if v.released < archive.released then mapInsert versions majmin archive else versions

/-- The whole selection loop of `fetchLatestTarVersions` over the decoded
archive list, starting from the empty map (update.go lines 128-142). -/
def selectVersions (archives : List Package) : VMap :=
  archives.foldl selectStep []

/-- Go `bytes.Index(data, sep)` for a one-byte `sep`: index of its first
occurrence, `-1` when absent. -/
def bytesIndex (data : List Char) (c : Char) : Int :=
  match data with
  | [] => -1
  | x :: xs =>
    if x = c then 0
    else
      let r := bytesIndex xs c
      if r < 0 then -1 else r + 1

/-- Go `bytes.LastIndex(data, sep)` for a one-byte `sep`: index of its
last occurrence, `-1` when absent. -/
def bytesLastIndex (data : List Char) (c : Char) : Int :=
  match data with
  | [] => -1
  | x :: xs =>
    let r := bytesLastIndex xs c
    if 0 ≤ r then r + 1 else if x = c then 0 else -1

/-- Go slice `data[a:b]`: the characters at positions `a ≤ i < b`. -/
def slice (data : List Char) (a b : Nat) : List Char := (data.take b).drop a

/-- The JSONP-unwrapping step of `fetchLatestTarVersions` (update.go lines
118-122): `data[start+1:end]` for the first `(` and last `)`, `none`
exactly when the guard `end > start && start > -1` fails. -/
def extractPayload (data : List Char) : Option (List Char) :=
  let s := bytesIndex data '('
  let e := bytesLastIndex data ')'
  if e > s ∧ s > -1 then some (slice data (s + 1).toNat e.toNat) else none

/-- The error outcomes of `fetchLatestTarVersions` after a successful
fetch: the `"error in jsonp content"` error and a `json.Unmarshal`
failure. -/
inductive FeedError where
  | jsonpFormat
  | decodeFailure
deriving Repr, DecidableEq

/-- `fetchLatestTarVersions` (update.go lines 108-144) applied to an
already-fetched body: unwrap the JSONP envelope, decode the payload
(`json.Unmarshal` abstracted as the `decode` parameter), and run the
selection loop. -/
def fetchLatestTarVersions (decode : List Char → Option (List Package)) (body : List Char) :
    Except FeedError VMap :=
  match extractPayload body with
  | none => .error .jsonpFormat
  | some payload =>
    match decode payload with
    | none => .error .decodeFailure
    | some archives => .ok (selectVersions archives)

/-- `p.Latest = true` as performed in the `getVersions` loop. -/
def setLatest (p : Package) : Package := { p with latest := true }

/-- The feed loop of `getVersions` (update.go lines 91-102): fetch each
feed in turn, aborting on the first error, otherwise merging the feed's
entries into the running map, with packages from `latestFeed` marked
`Latest`. -/
def getVersionsLoop (fetch : List Char → Except FeedError VMap) (latestFeed : List Char) :
    List (List Char) → VMap → Except FeedError VMap
  | [], versions => .ok versions
  | url :: rest, versions =>
    match fetch url with
    | .error e => .error e
    | .ok newVersions =>
      getVersionsLoop fetch latestFeed rest
        (newVersions.foldl
          (fun vs vp => mapInsert vs vp.1 (if url = latestFeed then setLatest vp.2 else vp.2))
          versions)

/-- `getVersions` (update.go lines 88-104): process the secondary feeds
followed by the primary feed (`append(otherFeeds, latestFeed)`), starting
from the empty map. -/
def getVersions (fetch : List Char → Except FeedError VMap) (latestFeed : List Char)
    (otherFeeds : List (List Char)) : Except FeedError VMap :=
  getVersionsLoop fetch latestFeed (otherFeeds ++ [latestFeed]) []

/-- A directory entry as reported by `ioutil.ReadDir`: its base name and
whether it is a directory. -/
structure DirEntry where
  name : List Char
  isDir : Bool
deriving Repr, DecidableEq

set_option linter.unusedVariables false in
/-- `getDirs` (update.go lines 73-84), with `ioutil.ReadDir` abstracted as
the `readDir` parameter.  Note the Go code calls `ioutil.ReadDir(".")`,
ignoring its `path` argument. -/
def getDirs (readDir : List Char → Option (List DirEntry)) (path : List Char) :
    Option (List (List Char)) :=
  match readDir ['.'] with
  | none => none
  | some entries =>
    some ((entries.filter (fun e => e.isDir && !(['.'].isPrefixOf e.name))).map DirEntry.name)

/-- Keys of the map, in order. -/
def mapKeys (m : VMap) : List (List Char) := m.map Prod.fst

/-- Lookup through a `fetch`/`getVersions` result: the entry for `k` when
the result is a map, `none` on an error result. -/
def lookupResult (r : Except FeedError VMap) (k : List Char) : Option Package :=
  match r with
  | .error _ => none
  | .ok m => mapLookup m k

/-- Splitting on every single separator character, with no limit on the
number of pieces (structural formulation). -/
def splitAll : List Char → List (List Char)
  | [] => [[]]
  | c :: cs =>
    if sepChar c then [] :: splitAll cs
    else
      match splitAll cs with
      | [] => [[c]]
      | p :: ps => (c :: p) :: ps

/-- The major.minor normalizer described through the unlimited split: the
first two pieces of `splitAll` joined by a dot, `"0.0"` when fewer than
two pieces result.  Used to state the (amended) §4.1 contract against
`MajorMinor`. -/
def majorMinorSingleSpec (v : List Char) : List Char :=
  match splitAll v with
  | p0 :: p1 :: _ => p0 ++ '.' :: p1
  | _ => ['0', '.', '0']

/-- Split off the piece before the first maximal run of separator
characters, returning it with the remainder after that whole run. -/
def splitRunFirst : List Char → Option (List Char × List Char)
  | [] => none
  | c :: cs =>
    if sepChar c then some ([], cs.dropWhile sepChar)
    else
      match splitRunFirst cs with
      | none => none
      | some pp => some (c :: pp.1, pp.2)

/-- Splitting on runs of separators, at most `n` pieces. -/
def splitRunLimit : List Char → Nat → List (List Char)
  | _, 0 => []
  | s, 1 => [s]
  | s, n + 2 =>
    match splitRunFirst s with
    | none => [s]
    | some pp => pp.1 :: splitRunLimit pp.2 (n + 1)

/-- The §4.1 contract read literally: split the version string on each
maximal run of `.`/`-` characters into at most three pieces, fall back to
`"0.0"` for fewer than two pieces, else join the first two with a dot.
Stated from the spec's words, to be compared with `MajorMinor`. -/
def majorMinorRunSpec (v : List Char) : List Char :=
  match splitRunLimit v 3 with
  | p0 :: p1 :: _ => p0 ++ '.' :: p1
  | _ => ['0', '.', '0']

/-- A relevant package dated 2021-01-10 (modelled as day number 10),
published on the primary feed in the cross-feed scenarios. -/
def pkgPrimEarly : Package :=
  { zipUrl := "https://example.org/atlassian-crowd-4.3.1.tar.gz".toList
    version := "4.3.1".toList
    released := 10
    latest := false }

/-- A relevant package with the same major.minor key dated 2021-03-01
(modelled as day number 60), published on a secondary feed. -/
def pkgSecLate : Package :=
  { zipUrl := "https://example.org/atlassian-crowd-4.3.2.tar.gz".toList
    version := "4.3.2".toList
    released := 60
    latest := false }

/-- The decoded content of each feed in the cross-feed scenarios: the
primary feed `"p"` carries `pkgPrimEarly`, every other feed carries
`pkgSecLate`. -/
def feedArchives (url : List Char) : List Package :=
  if url = ['p'] then [pkgPrimEarly] else [pkgSecLate]

/-- The body served for each feed URL in the cross-feed scenarios: the
feed's name wrapped in a JSONP envelope. -/
def feedBody (url : List Char) : List Char := '(' :: url ++ [')']

/-- The decoder used in the cross-feed scenarios: maps each feed's payload
to its decoded archives. -/
def feedDecode (payload : List Char) : Option (List Package) :=
  if payload = ['p'] || payload = ['s'] then some (feedArchives payload) else none

/-- Two relevant packages sharing the key `"4.3"` and an identical release
date, differing in their archive URL: the exact-tie scenario. -/
def pkgTieA : Package :=
  { zipUrl := "https://example.org/atlassian-crowd-4.3.3.tar.gz".toList
    version := "4.3.3".toList
    released := 25
    latest := false }

/-- The second package of the exact-tie scenario. -/
def pkgTieB : Package :=
  { zipUrl := "https://example.org/atlassian-crowd-4.3.4.tar.gz".toList
    version := "4.3.4".toList
    released := 25
    latest := false }

/-- An enterprise (non-standalone) tar package, which the filter must
exclude. -/
def pkgEnterprise : Package :=
  { zipUrl := "https://example.org/atlassian-crowd-4.3.1-enterprise.tar.gz".toList
    version := "4.3.1".toList
    released := 10
    latest := false }

/-- The standalone enterprise tar package, which the filter must keep. -/
def pkgEnterpriseStandalone : Package :=
  { zipUrl := "https://example.org/atlassian-crowd-4.3.1-enterprise-standalone.tar.gz".toList
    version := "4.3.1".toList
    released := 10
    latest := false }

/-- A directory listing used to exercise `getDirs`: the working directory
`"."` holds a version directory, a hidden directory and a plain file,
while the distinct root `"/x"` holds a different directory. -/
def readDirScenario (p : List Char) : Option (List DirEntry) :=
  if p = ['.'] then
    some [⟨"4.3".toList, true⟩, ⟨".git".toList, true⟩, ⟨"README".toList, false⟩]
  else
    some [⟨"other".toList, true⟩]

theorem splitAll_eq_splitFirst (s : List Char) :
    splitAll s = match splitFirst s with
      | none => [s]
      | some pp => pp.1 :: splitAll pp.2 := by
  induction s with
  | nil => rfl
  | cons c cs ih =>
    by_cases hc : sepChar c
    · simp [splitAll, splitFirst, hc]
    · rw [show splitAll (c :: cs) = match splitAll cs with
            | [] => [[c]]
            | p :: ps => (c :: p) :: ps from by simp [splitAll, hc]]
      cases h : splitFirst cs with
      | none => rw [ih]; simp [h, splitFirst, hc]
      | some pp => rw [ih]; simp [h, splitFirst, hc]

theorem splitLimit_three (s : List Char) :
    splitLimit s 3 = match splitFirst s with
      | none => [s]
      | some pp => pp.1 ::
          (match splitFirst pp.2 with
            | none => [pp.2]
            | some qq => [qq.1, qq.2]) := rfl

theorem splitFirst_eq_none (s : List Char) (h : ∀ c ∈ s, sepChar c = false) :
    splitFirst s = none := by
  induction s with
  | nil => rfl
  | cons c cs ih =>
    have hc : sepChar c = false := h c (by simp)
    have hcs : splitFirst cs = none := ih fun x hx => h x (by simp [hx])
    simp [splitFirst, hc, hcs]

theorem splitFirst_none_no_sep (s : List Char) (h : splitFirst s = none) :
    ∀ c ∈ s, sepChar c = false := by
  induction s with
  | nil => simp
  | cons c cs ih =>
    by_cases hc : sepChar c
    · simp [splitFirst, hc] at h
    · cases hcs : splitFirst cs with
      | none =>
        intro x hx
        rcases List.mem_cons.mp hx with rfl | hx
        · simpa using hc
        · exact ih hcs x hx
      | some pp => simp [splitFirst, hc, hcs] at h

theorem splitFirst_append (A rest : List Char) (c : Char)
    (hA : ∀ x ∈ A, sepChar x = false) (hc : sepChar c = true) :
    splitFirst (A ++ c :: rest) = some (A, rest) := by
  induction A with
  | nil => simp [splitFirst, hc]
  | cons a as ih =>
    have ha : sepChar a = false := hA a (by simp)
    have has : splitFirst (as ++ c :: rest) = some (as, rest) :=
      ih fun x hx => hA x (by simp [hx])
    simp [splitFirst, ha, has]

theorem splitFirst_pre_no_sep (s : List Char) :
    ∀ pre post, splitFirst s = some (pre, post) → ∀ c ∈ pre, sepChar c = false := by
  induction s with
  | nil => intro pre post h; simp [splitFirst] at h
  | cons c cs ih =>
    intro pre post h
    by_cases hc : sepChar c
    · simp [splitFirst, hc] at h
      obtain ⟨rfl, rfl⟩ := h
      simp
    · cases hcs : splitFirst cs with
      | none => simp [splitFirst, hc, hcs] at h
      | some pp =>
        simp [splitFirst, hc, hcs] at h
        obtain ⟨h1, h2⟩ := h
        subst h1
        intro x hx
        rcases List.mem_cons.mp hx with rfl | hx
        · simpa using hc
        · exact ih pp.1 pp.2 (by simpa using hcs) x hx

theorem MajorMinor_form (v : List Char) :
    ∃ A B, MajorMinor v = A ++ '.' :: B ∧
      (∀ c ∈ A, sepChar c = false) ∧ (∀ c ∈ B, sepChar c = false) := by
  cases h1 : splitFirst v with
  | none =>
    exact ⟨['0'], ['0'], by simp [MajorMinor, splitLimit_three, h1], by decide, by decide⟩
  | some pp =>
    cases h2 : splitFirst pp.2 with
    | none =>
      refine ⟨pp.1, pp.2, ?_, ?_, ?_⟩
      · simp [MajorMinor, splitLimit_three, h1, h2]
      · exact splitFirst_pre_no_sep v pp.1 pp.2 (by simpa using h1)
      · exact splitFirst_none_no_sep pp.2 h2
    | some qq =>
      refine ⟨pp.1, qq.1, ?_, ?_, ?_⟩
      · simp [MajorMinor, splitLimit_three, h1, h2]
      · exact splitFirst_pre_no_sep v pp.1 pp.2 (by simpa using h1)
      · exact splitFirst_pre_no_sep pp.2 qq.1 qq.2 (by simpa using h2)

theorem MajorMinor_join (A B : List Char)
    (hA : ∀ c ∈ A, sepChar c = false) (hB : ∀ c ∈ B, sepChar c = false) :
    MajorMinor (A ++ '.' :: B) = A ++ '.' :: B := by
  have h1 : splitFirst (A ++ '.' :: B) = some (A, B) :=
    splitFirst_append A B '.' hA (by decide)
  have h2 : splitFirst B = none := splitFirst_eq_none B hB
  simp [MajorMinor, splitLimit_three, h1, h2]

/-- C4 (counterexample): §4.1 describes splitting on each RUN of `.`/`-`
characters, but `MajorMinor` splits on each single separator character:
on `"4..3"` the run-reading of the contract yields `"4.3"` while the code
yields `"4."`. -/
theorem c4_run_split_counterexample :
    majorMinorRunSpec "4..3".toList = "4.3".toList ∧
    MajorMinor "4..3".toList = "4.".toList ∧
    "4.".toList ≠ "4.3".toList := by decide

/-- C4 (amended): `MajorMinor` splits the raw version string on each
single `.` or `-` character (not on runs) into at most three pieces; with
fewer than two pieces it returns the fallback `"0.0"` and never fails,
otherwise the first two pieces joined by a dot — equivalently, the first
two pieces of the unlimited single-character split; and
`MajorMinor("4.3.1") = "4.3"`, `MajorMinor("4.3.1-standalone") = "4.3"`,
`MajorMinor("5") = "0.0"`. -/
theorem c4_major_minor_amended :
    (∀ v, MajorMinor v = majorMinorSingleSpec v) ∧
    MajorMinor "4.3.1".toList = "4.3".toList ∧
    MajorMinor "4.3.1-standalone".toList = "4.3".toList ∧
    MajorMinor "5".toList = "0.0".toList := by
  refine ⟨?_, by decide, by decide, by decide⟩
  intro v
  rw [MajorMinor, majorMinorSingleSpec, splitLimit_three, splitAll_eq_splitFirst v]
  cases h1 : splitFirst v with
  | none => rfl
  | some pp =>
    dsimp only
    rw [splitAll_eq_splitFirst pp.2]
    cases h2 : splitFirst pp.2 with
    | none => rfl
    | some qq => rfl

/-- C7: `MajorMinor` always returns a string of the form `"X.Y"` with `X`
and `Y` free of separator characters, and it is idempotent:
`MajorMinor (MajorMinor v) = MajorMinor v` for every version string. -/
theorem c7_major_minor_idempotent :
    ∀ v, (∃ A B, MajorMinor v = A ++ '.' :: B) ∧
      MajorMinor (MajorMinor v) = MajorMinor v := by
  intro v
  obtain ⟨A, B, hv, hA, hB⟩ := MajorMinor_form v
  exact ⟨⟨A, B, hv⟩, by rw [hv, MajorMinor_join A B hA hB]⟩

theorem mapLookup_mapInsert_self (m : VMap) (k : List Char) (p : Package) :
    mapLookup (mapInsert m k p) k = some p := by
  induction m with
  | nil => simp [mapInsert, mapLookup]
  | cons kp rest ih =>
    by_cases h : kp.1 = k
    · simp [mapInsert, h, mapLookup]
    · simp [mapInsert, h, mapLookup, ih]

theorem mapLookup_mapInsert_ne (m : VMap) (k k' : List Char) (p : Package) (h : k' ≠ k) :
    mapLookup (mapInsert m k' p) k = mapLookup m k := by
  induction m with
  | nil => simp [mapInsert, mapLookup, h]
  | cons kp rest ih =>
    by_cases hk : kp.1 = k'
    · have : kp.1 ≠ k := by rw [hk]; exact h
      simp [mapInsert, hk, mapLookup, h, this]
    · by_cases hkk : kp.1 = k
      · have hne : ¬k = k' := fun he => h he.symm
        simp [mapInsert, hk, mapLookup, hkk, hne]
      · simp [mapInsert, hk, mapLookup, hkk, ih]

theorem mem_mapInsert (m : VMap) (k : List Char) (p : Package) :
    ∀ x ∈ mapInsert m k p, x ∈ m ∨ x = (k, p) := by
  induction m with
  | nil => simp [mapInsert]
  | cons kp rest ih =>
    intro x hx
    by_cases h : kp.1 = k
    · simp [mapInsert, h] at hx
      rcases hx with rfl | hx
      · right; rfl
      · left; simp [hx]
    · simp [mapInsert, h] at hx
      rcases hx with rfl | hx
      · left; simp
      · rcases ih x hx with hm | rfl
        · left; simp [hm]
        · right; rfl

theorem mapLookup_mem (m : VMap) (k : List Char) (p : Package)
    (h : mapLookup m k = some p) : (k, p) ∈ m := by
  induction m with
  | nil => simp [mapLookup] at h
  | cons kp rest ih =>
    by_cases hk : kp.1 = k
    · simp [mapLookup, hk] at h
      have : kp = (k, p) := by
        cases kp
        simp_all
      simp [this]
    · simp [mapLookup, hk] at h
      simp [ih h]

theorem mem_mapKeys_mapInsert (m : VMap) (k x : List Char) (p : Package)
    (h : x ∈ mapKeys (mapInsert m k p)) : x ∈ mapKeys m ∨ x = k := by
  simp only [mapKeys] at h ⊢
  rcases List.mem_map.mp h with ⟨kp, hkp, hfst⟩
  rcases mem_mapInsert m k p kp hkp with hm | he
  · left
    exact hfst ▸ List.mem_map_of_mem Prod.fst hm
  · right
    rw [← hfst, he]

theorem mapKeys_cons (kp : List Char × Package) (m : VMap) :
    mapKeys (kp :: m) = kp.1 :: mapKeys m := rfl

theorem nodup_mapKeys_mapInsert (m : VMap) (k : List Char) (p : Package)
    (h : (mapKeys m).Nodup) : (mapKeys (mapInsert m k p)).Nodup := by
  induction m with
  | nil => simp [mapInsert, mapKeys]
  | cons kp rest ih =>
    rw [mapKeys_cons, List.nodup_cons] at h
    obtain ⟨hnot, hnd⟩ := h
    by_cases hk : kp.1 = k
    · rw [show mapInsert (kp :: rest) k p = (k, p) :: rest from by simp [mapInsert, hk],
        mapKeys_cons, List.nodup_cons]
      exact ⟨by rw [← hk]; exact hnot, hnd⟩
    · rw [show mapInsert (kp :: rest) k p = kp :: mapInsert rest k p from by simp [mapInsert, hk],
        mapKeys_cons, List.nodup_cons]
      refine ⟨?_, ih hnd⟩
      intro hmem
      rcases mem_mapKeys_mapInsert rest k kp.1 p hmem with hm | he
      · exact hnot hm
      · exact hk he


theorem selectStep_keys_nodup (V : VMap) (a : Package)
    (h : (mapKeys V).Nodup) : (mapKeys (selectStep V a)).Nodup := by
  unfold selectStep
  by_cases hr : relevantFile (pathBase a.zipUrl)
  · simp [hr]
    cases hl : mapLookup V (MajorMinor a.version) with
    | none => exact nodup_mapKeys_mapInsert V _ a h
    | some v =>
      by_cases hd : v.released < a.released
      · simp [hd]
        exact nodup_mapKeys_mapInsert V _ a h
      · simp [hd]
        exact h
  · simp [hr]
    exact h

theorem foldl_selectStep_keys_nodup (l : List Package) (V : VMap)
    (h : (mapKeys V).Nodup) : (mapKeys (l.foldl selectStep V)).Nodup := by
  induction l generalizing V with
  | nil => exact h
  | cons a rest ih => exact ih (selectStep V a) (selectStep_keys_nodup V a h)

theorem selectVersions_keys_nodup (archives : List Package) :
    (mapKeys (selectVersions archives)).Nodup :=
  foldl_selectStep_keys_nodup archives [] (by simp [mapKeys])

theorem lookup_selectStep_mono (V : VMap) (a : Package) (k : List Char) (p : Package)
    (h : mapLookup V k = some p) :
    ∃ q, mapLookup (selectStep V a) k = some q ∧ p.released ≤ q.released := by
  unfold selectStep
  by_cases hr : relevantFile (pathBase a.zipUrl)
  · simp [hr]
    by_cases hk : MajorMinor a.version = k
    · rw [hk, h]
      by_cases hd : p.released < a.released
      · simp [hd]
        exact ⟨a, mapLookup_mapInsert_self V k a, le_of_lt hd⟩
      · simp [hd]
        exact ⟨p, h, le_refl _⟩
    · cases hl : mapLookup V (MajorMinor a.version) with
      | none => exact ⟨p, by rw [mapLookup_mapInsert_ne V k _ a hk]; exact h, le_refl _⟩
      | some v =>
        by_cases hd : v.released < a.released
        · simp [hd]
          exact ⟨p, by rw [mapLookup_mapInsert_ne V k _ a hk]; exact h, le_refl _⟩
        · simp [hd]
          exact ⟨p, h, le_refl _⟩
  · simp [hr]
    exact ⟨p, h, le_refl _⟩

theorem lookup_foldl_selectStep_mono (l : List Package) (V : VMap) (k : List Char) (p : Package)
    (h : mapLookup V k = some p) :
    ∃ q, mapLookup (l.foldl selectStep V) k = some q ∧ p.released ≤ q.released := by
  induction l generalizing V p with
  | nil => exact ⟨p, h, le_refl _⟩
  | cons a rest ih =>
    obtain ⟨q, hq, hpq⟩ := lookup_selectStep_mono V a k p h
    obtain ⟨r, hr, hqr⟩ := ih (selectStep V a) q hq
    exact ⟨r, hr, le_trans hpq hqr⟩

theorem lookup_selectStep_self (V : VMap) (a : Package) (k : List Char)
    (hr : relevantFile (pathBase a.zipUrl) = true) (hk : MajorMinor a.version = k) :
    ∃ q, mapLookup (selectStep V a) k = some q ∧ a.released ≤ q.released := by
  unfold selectStep
  rw [hk]
  simp [hr]
  cases hl : mapLookup V k with
  | none =>
    dsimp only
    exact ⟨a, mapLookup_mapInsert_self V k a, le_refl _⟩
  | some v =>
    dsimp only
    by_cases hd : v.released < a.released
    · simp [hd]
      exact ⟨a, mapLookup_mapInsert_self V k a, le_refl _⟩
    · simp [hd]
      exact ⟨v, hl, le_of_not_lt hd⟩

theorem foldl_selectStep_dominates (l : List Package) (V : VMap) (k : List Char) (p : Package)
    (h : mapLookup (l.foldl selectStep V) k = some p) :
    ∀ a ∈ l, relevantFile (pathBase a.zipUrl) = true → MajorMinor a.version = k →
      a.released ≤ p.released := by
  induction l generalizing V with
  | nil => simp
  | cons a rest ih =>
    intro b hb hbr hbk
    rcases List.mem_cons.mp hb with rfl | hb
    · obtain ⟨q, hq, hbq⟩ := lookup_selectStep_self V b k hbr hbk
      obtain ⟨r, hr, hqr⟩ := lookup_foldl_selectStep_mono rest (selectStep V b) k q hq
      rw [List.foldl_cons] at h
      rw [h] at hr
      cases hr
      exact le_trans hbq hqr
    · exact ih (selectStep V a) h b hb hbr hbk

/-- C2 (counterexample): two relevant packages from the same feed share
the key `"4.3"` and an identical release date, yet the selection loop
keeps the FIRST one processed (`pkgTieA`), not the last as claimed:
`Released.After` is strict, so an equal-dated later record never replaces
the existing entry. -/
theorem c2_tie_counterexample :
    relevantPackage pkgTieA = true ∧ relevantPackage pkgTieB = true ∧
    MajorMinor pkgTieA.version = MajorMinor pkgTieB.version ∧
    pkgTieA.released = pkgTieB.released ∧ pkgTieA ≠ pkgTieB ∧
    mapLookup (selectVersions [pkgTieA, pkgTieB]) (MajorMinor pkgTieA.version) =
      some pkgTieA := by decide

/-- C2 (amended): when two candidate packages from the same feed share
both the version key and an exactly equal release date, the one processed
FIRST (first-write-wins by encounter order) is retained in the resolved
mapping, because replacement requires a strictly later date. -/
theorem c2_tie_amended :
    ∀ p1 p2 : Package, relevantPackage p1 = true → relevantPackage p2 = true →
      MajorMinor p2.version = MajorMinor p1.version →
      p1.released = p2.released →
      mapLookup (selectVersions [p1, p2]) (MajorMinor p1.version) = some p1 := by
  intro p1 p2 h1 h2 hk hd
  unfold relevantPackage at h1 h2
  show mapLookup (selectStep (selectStep [] p1) p2) (MajorMinor p1.version) = some p1
  have s1 : selectStep [] p1 = [(MajorMinor p1.version, p1)] := by
    unfold selectStep
    simp [h1, mapLookup, mapInsert]
  rw [s1]
  unfold selectStep
  simp [h2, hk, mapLookup, hd]

/-- C2 (witness): the amended tie-break applied to the concrete tie
scenario. -/
theorem c2_tie_amended_app :
    mapLookup (selectVersions [pkgTieA, pkgTieB]) (MajorMinor pkgTieA.version) =
      some pkgTieA :=
  c2_tie_amended pkgTieA pkgTieB (by decide) (by decide) (by decide) (by decide)

/-- C5: the package filter returns `true` exactly when the last path
segment of the archive URL contains `".tar.gz"`, contains `"standalone"`
whenever it contains `"enterprise"`, and contains neither `"cluster"` nor
`"war"`; in particular it excludes the plain enterprise tarball and keeps
the enterprise-standalone one. -/
theorem c5_filter_iff :
    (∀ p : Package,
      relevantPackage p = true ↔
        (containsSub (pathBase p.zipUrl) ".tar.gz".toList = true ∧
         (containsSub (pathBase p.zipUrl) "enterprise".toList = true →
            containsSub (pathBase p.zipUrl) "standalone".toList = true) ∧
         containsSub (pathBase p.zipUrl) "cluster".toList = false ∧
         containsSub (pathBase p.zipUrl) "war".toList = false)) ∧
    relevantPackage pkgEnterprise = false ∧
    relevantPackage pkgEnterpriseStandalone = true := by
  refine ⟨fun p => ?_, by decide, by decide⟩
  unfold relevantPackage relevantFile
  cases h1 : containsSub (pathBase p.zipUrl) ".tar.gz".toList <;>
    cases h2 : containsSub (pathBase p.zipUrl) "enterprise".toList <;>
      cases h3 : containsSub (pathBase p.zipUrl) "standalone".toList <;>
        cases h4 : containsSub (pathBase p.zipUrl) "cluster".toList <;>
          cases h5 : containsSub (pathBase p.zipUrl) "war".toList <;> simp

/-- C5 (witness): the filter characterization applied to the concrete
standalone-enterprise package. -/
theorem c5_filter_iff_app :
    containsSub (pathBase pkgEnterpriseStandalone.zipUrl) ".tar.gz".toList = true :=
  ((c5_filter_iff.1 pkgEnterpriseStandalone).mp (by decide)).1

theorem lookup_foldl_insert_not_mem (l : List (List Char × Package)) (f : Package → Package)
    (V : VMap) (k : List Char) (h : k ∉ mapKeys l) :
    mapLookup (l.foldl (fun vs vp => mapInsert vs vp.1 (f vp.2)) V) k = mapLookup V k := by
  induction l generalizing V with
  | nil => rfl
  | cons vp rest ih =>
    rw [mapKeys_cons] at h
    have h1 : vp.1 ≠ k := fun he => h (by rw [he]; exact List.mem_cons_self _ _)
    have h2 : k ∉ mapKeys rest := fun hm => h (List.mem_cons_of_mem _ hm)
    rw [List.foldl_cons, ih _ h2, mapLookup_mapInsert_ne V k vp.1 (f vp.2) h1]

theorem lookup_foldl_insert (l : List (List Char × Package)) (f : Package → Package)
    (V : VMap) (k : List Char) (p : Package)
    (hnd : (mapKeys l).Nodup) (h : mapLookup l k = some p) :
    mapLookup (l.foldl (fun vs vp => mapInsert vs vp.1 (f vp.2)) V) k = some (f p) := by
  induction l generalizing V with
  | nil => simp [mapLookup] at h
  | cons vp rest ih =>
    rw [mapKeys_cons, List.nodup_cons] at hnd
    obtain ⟨hnot, hnd⟩ := hnd
    rw [List.foldl_cons]
    by_cases hk : vp.1 = k
    · subst hk
      have hp : vp.2 = p := by simpa [mapLookup] using h
      rw [lookup_foldl_insert_not_mem rest f _ vp.1 hnot, mapLookup_mapInsert_self, hp]
    · have h' : mapLookup rest k = some p := by simpa [mapLookup, hk] using h
      exact ih _ hnd h'

theorem getVersionsLoop_ok_latest (fetch : List Char → Except FeedError VMap)
    (latest : List Char) (m : VMap) (k : List Char) (p : Package)
    (hm : fetch latest = Except.ok m) (hnd : (mapKeys m).Nodup)
    (hk : mapLookup m k = some p) :
    ∀ (others : List (List Char)) (V final : VMap),
      getVersionsLoop fetch latest (others ++ [latest]) V = Except.ok final →
      mapLookup final k = some (setLatest p) := by
  intro others
  induction others with
  | nil =>
    intro V final h
    simp [getVersionsLoop, hm] at h
    rw [← h]
    exact lookup_foldl_insert m setLatest V k p hnd hk
  | cons u rest ih =>
    intro V final h
    rw [List.cons_append] at h
    cases hu : fetch u with
    | error e => simp [getVersionsLoop, hu] at h
    | ok newV =>
      simp only [getVersionsLoop, hu] at h
      exact ih _ _ h

theorem fetch_ok_selectVersions (decode : List Char → Option (List Package)) (body : List Char)
    (m : VMap) (h : fetchLatestTarVersions decode body = Except.ok m) :
    ∃ archives, m = selectVersions archives := by
  unfold fetchLatestTarVersions at h
  cases he : extractPayload body with
  | none => simp [he] at h
  | some payload =>
    cases hd : decode payload with
    | none => simp [he, hd] at h
    | some archives =>
      simp [he, hd] at h
      exact ⟨archives, h.symm⟩

/-- C1 (counterexample): two packages that survive the filter share the
key `"4.3"`; the secondary feed's is dated strictly later, yet the final
mapping of `getVersions` retains the primary feed's strictly EARLIER
package, because the cross-feed merge overwrites unconditionally with no
date comparison. -/
theorem c1_cross_feed_counterexample :
    relevantPackage pkgPrimEarly = true ∧ relevantPackage pkgSecLate = true ∧
    MajorMinor pkgPrimEarly.version = "4.3".toList ∧
    MajorMinor pkgSecLate.version = "4.3".toList ∧
    pkgPrimEarly.released < pkgSecLate.released ∧
    lookupResult
      (getVersions (fun u => fetchLatestTarVersions feedDecode (feedBody u)) ['p'] [['s']])
      "4.3".toList = some (setLatest pkgPrimEarly) ∧
    (setLatest pkgPrimEarly).released < pkgSecLate.released := by decide

/-- C1 (amended): WITHIN a single feed the selection loop keeps, per
version key, an entry whose release date is at least that of every
surviving candidate with that key (replacement needs a strictly later
date), and the kept entry is itself one of the map's entries; ACROSS
feeds, however, `getVersions` performs no date comparison: the primary
feed is processed last and its entry for a key unconditionally replaces
any earlier feed's entry for that key. -/
theorem c1_selection_amended :
    (∀ archives k p, mapLookup (selectVersions archives) k = some p →
      (k, p) ∈ selectVersions archives ∧
      ∀ a ∈ archives, relevantPackage a = true → MajorMinor a.version = k →
        a.released ≤ p.released) ∧
    (∀ (fetch : List Char → Except FeedError VMap) (latest : List Char)
      (others : List (List Char)) (m : VMap) (k : List Char) (p : Package) (final : VMap),
      fetch latest = Except.ok m → (mapKeys m).Nodup → mapLookup m k = some p →
      getVersions fetch latest others = Except.ok final →
      mapLookup final k = some (setLatest p)) := by
  constructor
  · intro archives k p h
    refine ⟨mapLookup_mem _ _ _ h, ?_⟩
    intro a ha har hak
    exact foldl_selectStep_dominates archives [] k p h a ha har hak
  · intro fetch latest others m k p final h1 h2 h3 h4
    exact getVersionsLoop_ok_latest fetch latest m k p h1 h2 h3 others [] final h4

/-- C1 (witness): the amended selection rule applied to concrete data:
within one feed the later-dated `pkgSecLate` dominates, and across feeds
the primary feed's entry is the one retained, marked `Latest`. -/
theorem c1_selection_amended_app :
    pkgPrimEarly.released ≤ pkgSecLate.released ∧
    mapLookup [("4.3".toList, setLatest pkgTieA)] "4.3".toList = some (setLatest pkgTieA) := by
  constructor
  · exact (c1_selection_amended.1 [pkgPrimEarly, pkgSecLate] "4.3".toList pkgSecLate
      (by decide)).2 pkgPrimEarly (by simp) (by decide) (by decide)
  · exact c1_selection_amended.2 (fun _ => Except.ok [("4.3".toList, pkgTieA)]) ['p'] []
      [("4.3".toList, pkgTieA)] "4.3".toList pkgTieA [("4.3".toList, setLatest pkgTieA)]
      rfl (by decide) (by decide) rfl

/-- C3: when the primary feed's selected map contains an entry for a key
(and a secondary feed contributes one too), the final mapping's entry for
that key is the primary feed's package with its `Latest` flag set,
whatever the relative dates: the primary feed is processed last by
construction and overwrites. -/
theorem c3_primary_feed_flag :
    ∀ (decode : List Char → Option (List Package)) (bodies : List Char → List Char)
      (latest : List Char) (others : List (List Char)) (k : List Char) (p : Package)
      (m final : VMap),
      fetchLatestTarVersions decode (bodies latest) = Except.ok m →
      mapLookup m k = some p →
      (∃ s ∈ others, ∃ q, lookupResult (fetchLatestTarVersions decode (bodies s)) k = some q) →
      getVersions (fun u => fetchLatestTarVersions decode (bodies u)) latest others =
        Except.ok final →
      mapLookup final k = some (setLatest p) := by
  intro decode bodies latest others k p m final h1 h2 _hs h4
  have hnd : (mapKeys m).Nodup := by
    obtain ⟨archives, rfl⟩ := fetch_ok_selectVersions decode (bodies latest) m h1
    exact selectVersions_keys_nodup archives
  exact getVersionsLoop_ok_latest _ latest m k p h1 hnd h2 others [] final h4

/-- C3 (witness): the primary-flag rule applied to the concrete two-feed
scenario, where the secondary feed's candidate is dated later. -/
theorem c3_primary_feed_flag_app :
    mapLookup [("4.3".toList, setLatest pkgPrimEarly)] "4.3".toList =
      some (setLatest pkgPrimEarly) :=
  c3_primary_feed_flag feedDecode feedBody ['p'] [['s']] "4.3".toList pkgPrimEarly
    [("4.3".toList, pkgPrimEarly)] [("4.3".toList, setLatest pkgPrimEarly)]
    rfl (by decide) ⟨['s'], by simp, pkgSecLate, by decide⟩ rfl

theorem getVersionsLoop_error (fetch : List Char → Except FeedError VMap)
    (latest : List Char) (e : FeedError) (u : List Char)
    (hu : fetch u = Except.error e) :
    ∀ (pre : List (List Char)), (∀ v ∈ pre, ∃ mv, fetch v = Except.ok mv) →
      ∀ (post : List (List Char)) (V : VMap),
        getVersionsLoop fetch latest (pre ++ u :: post) V = Except.error e := by
  intro pre
  induction pre with
  | nil =>
    intro _ post V
    simp [getVersionsLoop, hu]
  | cons v rest ih =>
    intro hok post V
    obtain ⟨mv, hmv⟩ := hok v (by simp)
    simp only [List.cons_append, getVersionsLoop, hmv]
    exact ih (fun x hx => hok x (by simp [hx])) post _

/-- C8: if a feed in the processed sequence (secondary feeds then the
primary feed) fails while every feed before it succeeded, `getVersions`
returns exactly that feed's error — an error value carrying no mapping,
so no partial mapping from the earlier feeds is ever returned. -/
theorem c8_first_feed_error :
    ∀ (fetch : List Char → Except FeedError VMap) (latest : List Char)
      (others pre post : List (List Char)) (u : List Char) (e : FeedError),
      others ++ [latest] = pre ++ u :: post →
      (∀ v ∈ pre, ∃ mv, fetch v = Except.ok mv) →
      fetch u = Except.error e →
      getVersions fetch latest others = Except.error e := by
  intro fetch latest others pre post u e hdec hok hu
  unfold getVersions
  rw [hdec]
  exact getVersionsLoop_error fetch latest e u hu pre hok post []

/-- C8 (witness): a three-feed run whose second secondary feed fails
aborts with that feed's error. -/
theorem c8_first_feed_error_app :
    getVersions
      (fun u => if u = ['b'] then Except.error FeedError.jsonpFormat else Except.ok [])
      ['p'] [['a'], ['b']] = Except.error FeedError.jsonpFormat := by
  refine c8_first_feed_error _ ['p'] [['a'], ['b']] [['a']] [['p']] ['b']
    FeedError.jsonpFormat rfl ?_ rfl
  intro v hv
  have hv' : v = ['a'] := by simpa using hv
  subst hv'
  exact ⟨[], rfl⟩

theorem mem_selectStep (V : VMap) (a : Package) :
    ∀ x ∈ selectStep V a,
      x ∈ V ∨ (x = (MajorMinor a.version, a) ∧ relevantFile (pathBase a.zipUrl) = true) := by
  unfold selectStep
  by_cases hr : relevantFile (pathBase a.zipUrl)
  · simp only [hr, Bool.not_true, Bool.false_eq_true, if_false]
    cases hl : mapLookup V (MajorMinor a.version) with
    | none =>
      intro x hx
      rcases mem_mapInsert V (MajorMinor a.version) a x hx with hv | rfl
      · exact Or.inl hv
      · exact Or.inr ⟨rfl, trivial⟩
    | some v =>
      by_cases hd : v.released < a.released
      · simp only [hd, if_true]
        intro x hx
        rcases mem_mapInsert V (MajorMinor a.version) a x hx with hv | rfl
        · exact Or.inl hv
        · exact Or.inr ⟨rfl, trivial⟩
      · simp only [hd, if_false]
        intro x hx
        exact Or.inl hx
  · simp only [Bool.not_eq_true] at hr
    simp only [hr, Bool.not_false, if_true]
    intro x hx
    exact Or.inl hx

theorem mem_foldl_selectStep (l : List Package) (V : VMap) :
    ∀ x ∈ l.foldl selectStep V,
      x ∈ V ∨ ∃ a ∈ l,
        x = (MajorMinor a.version, a) ∧ relevantFile (pathBase a.zipUrl) = true := by
  induction l generalizing V with
  | nil =>
    intro x hx
    exact Or.inl hx
  | cons a rest ih =>
    intro x hx
    rw [List.foldl_cons] at hx
    rcases ih (selectStep V a) x hx with hv | ⟨b, hb, hx', hbr⟩
    · rcases mem_selectStep V a x hv with h | ⟨he, hr⟩
      · exact Or.inl h
      · exact Or.inr ⟨a, by simp, he, hr⟩
    · exact Or.inr ⟨b, by simp [hb], hx', hbr⟩

theorem selectVersions_entry_inv (archives : List Package) :
    ∀ k p, mapLookup (selectVersions archives) k = some p →
      k = MajorMinor p.version ∧ relevantFile (pathBase p.zipUrl) = true := by
  intro k p h
  have hm := mapLookup_mem _ _ _ h
  rcases mem_foldl_selectStep archives [] (k, p) hm with h0 | ⟨a, _, he, hr⟩
  · simp at h0
  · injection he with hk hp
    subst hp
    exact ⟨hk, hr⟩

theorem mem_foldl_insert (l : List (List Char × Package)) (f : Package → Package) (V : VMap) :
    ∀ x ∈ l.foldl (fun vs vp => mapInsert vs vp.1 (f vp.2)) V,
      x ∈ V ∨ ∃ y ∈ l, x = (y.1, f y.2) := by
  induction l generalizing V with
  | nil =>
    intro x hx
    exact Or.inl hx
  | cons vp rest ih =>
    intro x hx
    rw [List.foldl_cons] at hx
    rcases ih (mapInsert V vp.1 (f vp.2)) x hx with hv | ⟨y, hy, hx'⟩
    · rcases mem_mapInsert V vp.1 (f vp.2) x hv with h | rfl
      · exact Or.inl h
      · exact Or.inr ⟨vp, by simp, rfl⟩
    · exact Or.inr ⟨y, by simp [hy], hx'⟩

theorem getVersionsLoop_entry_inv (fetch : List Char → Except FeedError VMap)
    (latest : List Char)
    (hfetch : ∀ u m, fetch u = Except.ok m → ∀ x ∈ m,
      x.1 = MajorMinor x.2.version ∧ relevantFile (pathBase x.2.zipUrl) = true) :
    ∀ (feeds : List (List Char)) (V final : VMap),
      (∀ x ∈ V, x.1 = MajorMinor x.2.version ∧ relevantFile (pathBase x.2.zipUrl) = true) →
      getVersionsLoop fetch latest feeds V = Except.ok final →
      ∀ x ∈ final, x.1 = MajorMinor x.2.version ∧ relevantFile (pathBase x.2.zipUrl) = true := by
  intro feeds
  induction feeds with
  | nil =>
    intro V final hV h
    have : V = final := by simpa [getVersionsLoop] using h
    rw [← this]
    exact hV
  | cons u rest ih =>
    intro V final hV h
    cases hu : fetch u with
    | error e => simp [getVersionsLoop, hu] at h
    | ok newV =>
      simp only [getVersionsLoop, hu] at h
      refine ih _ final ?_ h
      intro x hx
      rcases mem_foldl_insert newV (fun q => if u = latest then setLatest q else q) V x hx
        with hv | ⟨y, hy, hx'⟩
      · exact hV x hv
      · obtain ⟨hy1, hy2⟩ := hfetch u newV hu y hy
        rw [hx']
        by_cases hul : u = latest
        · simp only [hul, if_true]
          exact ⟨by simpa [setLatest] using hy1, by simpa [setLatest] using hy2⟩
        · simp only [hul, if_false]
          exact ⟨hy1, hy2⟩

/-- C10: every entry of a map produced by `fetchLatestTarVersions` — and
hence every entry of the final mapping of `getVersions` over such feeds —
is keyed by the `MajorMinor` of its own package's version string, and its
package's archive filename passes the relevance filter. -/
theorem c10_entry_invariant :
    (∀ (decode : List Char → Option (List Package)) (body : List Char) (m : VMap),
      fetchLatestTarVersions decode body = Except.ok m →
      ∀ k p, mapLookup m k = some p →
        k = MajorMinor p.version ∧ relevantFile (pathBase p.zipUrl) = true) ∧
    (∀ (decode : List Char → Option (List Package)) (bodies : List Char → List Char)
      (latest : List Char) (others : List (List Char)) (final : VMap),
      getVersions (fun u => fetchLatestTarVersions decode (bodies u)) latest others =
        Except.ok final →
      ∀ k p, mapLookup final k = some p →
        k = MajorMinor p.version ∧ relevantFile (pathBase p.zipUrl) = true) := by
  constructor
  · intro decode body m h k p hk
    obtain ⟨archives, rfl⟩ := fetch_ok_selectVersions decode body m h
    exact selectVersions_entry_inv archives k p hk
  · intro decode bodies latest others final h k p hk
    have hfetch : ∀ u m, fetchLatestTarVersions decode (bodies u) = Except.ok m →
        ∀ x ∈ m, x.1 = MajorMinor x.2.version ∧ relevantFile (pathBase x.2.zipUrl) = true := by
      intro u m hm x hx
      obtain ⟨archives, rfl⟩ := fetch_ok_selectVersions decode (bodies u) m hm
      rcases mem_foldl_selectStep archives [] x hx with h0 | ⟨a, _, he, hr⟩
      · simp at h0
      · rw [he]
        exact ⟨rfl, hr⟩
    have := getVersionsLoop_entry_inv _ latest hfetch (others ++ [latest]) [] final
      (by simp) h (k, p) (mapLookup_mem final k p hk)
    exact this

/-- C10 (witness): the invariant applied to the concrete resolved mapping
of the two-feed scenario. -/
theorem c10_entry_invariant_app :
    "4.3".toList = MajorMinor (setLatest pkgPrimEarly).version ∧
    relevantFile (pathBase (setLatest pkgPrimEarly).zipUrl) = true :=
  c10_entry_invariant.2 feedDecode feedBody ['p'] [['s']]
    [("4.3".toList, setLatest pkgPrimEarly)] rfl "4.3".toList (setLatest pkgPrimEarly)
    (by decide)

/-- C9 (evaluation at the failing input): `getDirs` always lists the
subdirectories of `"."`, ignoring its root-path argument.  With a
filesystem where `"/x"` contains the directory `other` while the working
directory contains the directory `4.3`, a hidden directory and a plain
file, `getDirs` on `"/x"` returns `["4.3"]` — the non-hidden
subdirectory of `"."` — instead of `["other"]`. -/
theorem c9_getdirs_ignores_path :
    getDirs readDirScenario "/x".toList = some ["4.3".toList] ∧
    readDirScenario "/x".toList = some [⟨"other".toList, true⟩] := by decide

theorem bytesIndex_not_mem (s : List Char) (c : Char) (h : c ∉ s) : bytesIndex s c = -1 := by
  induction s with
  | nil => rfl
  | cons x xs ih =>
    have hx : x ≠ c := fun he => h (by rw [he]; exact List.mem_cons_self _ _)
    have hxs : c ∉ xs := fun hm => h (List.mem_cons_of_mem _ hm)
    simp [bytesIndex, hx, ih hxs]

theorem bytesLastIndex_not_mem (s : List Char) (c : Char) (h : c ∉ s) :
    bytesLastIndex s c = -1 := by
  induction s with
  | nil => rfl
  | cons x xs ih =>
    have hx : x ≠ c := fun he => h (by rw [he]; exact List.mem_cons_self _ _)
    have hxs : c ∉ xs := fun hm => h (List.mem_cons_of_mem _ hm)
    simp [bytesLastIndex, hx, ih hxs]

theorem bytesIndex_append (pre rest : List Char) (c : Char) (h : c ∉ pre) :
    bytesIndex (pre ++ c :: rest) c = pre.length := by
  induction pre with
  | nil => simp [bytesIndex]
  | cons x pre' ih =>
    have hx : x ≠ c := fun he => h (by rw [he]; exact List.mem_cons_self _ _)
    have h' : c ∉ pre' := fun hm => h (List.mem_cons_of_mem _ hm)
    have hih := ih h'
    rw [List.cons_append]
    have hnn : ¬ bytesIndex (pre' ++ c :: rest) c < 0 := by rw [hih]; omega
    simp [bytesIndex, hx, hnn, hih]

theorem bytesLastIndex_append (pre post : List Char) (c : Char) (h : c ∉ post) :
    bytesLastIndex (pre ++ c :: post) c = pre.length := by
  induction pre with
  | nil =>
    have h0 : bytesLastIndex post c = -1 := bytesLastIndex_not_mem post c h
    simp [bytesLastIndex, h0]
  | cons x pre' ih =>
    rw [List.cons_append]
    have hnn : 0 ≤ bytesLastIndex (pre' ++ c :: post) c := by rw [ih]; omega
    simp [bytesLastIndex, hnn, ih]

theorem bytesIndex_nonneg_decomp (s : List Char) (c : Char) (h : 0 ≤ bytesIndex s c) :
    ∃ pre post, s = pre ++ c :: post ∧ (pre.length : Int) = bytesIndex s c ∧ c ∉ pre := by
  induction s with
  | nil => simp [bytesIndex] at h
  | cons x xs ih =>
    by_cases hx : x = c
    · subst hx
      exact ⟨[], xs, rfl, by simp [bytesIndex], by simp⟩
    · by_cases hr : bytesIndex xs c < 0
      · have hneg : bytesIndex (x :: xs) c = -1 := by simp [bytesIndex, hx, hr]
        rw [hneg] at h
        omega
      · have hxs : 0 ≤ bytesIndex xs c := by omega
        obtain ⟨pre, post, hs, hlen, hnm⟩ := ih hxs
        refine ⟨x :: pre, post, by rw [List.cons_append, ← hs], ?_, ?_⟩
        · have hstep : bytesIndex (x :: xs) c = bytesIndex xs c + 1 := by
            simp [bytesIndex, hx, hr]
          rw [hstep, ← hlen]
          simp
        · intro hm
          rcases List.mem_cons.mp hm with he | hm'
          · exact hx he.symm
          · exact hnm hm'

theorem bytesLastIndex_mem (s : List Char) (c : Char) (h : c ∈ s) :
    0 ≤ bytesLastIndex s c := by
  induction s with
  | nil => simp at h
  | cons x xs ih =>
    by_cases hr : 0 ≤ bytesLastIndex xs c
    · simp [bytesLastIndex, hr]
      omega
    · rcases List.mem_cons.mp h with rfl | hm
      · simp [bytesLastIndex, hr]
      · exact absurd (ih hm) hr

theorem bytesLastIndex_nonneg_decomp (s : List Char) (c : Char) (h : 0 ≤ bytesLastIndex s c) :
    ∃ pre post, s = pre ++ c :: post ∧ (pre.length : Int) = bytesLastIndex s c ∧ c ∉ post := by
  induction s with
  | nil => simp [bytesLastIndex] at h
  | cons x xs ih =>
    by_cases hr : 0 ≤ bytesLastIndex xs c
    · obtain ⟨pre, post, hs, hlen, hnm⟩ := ih hr
      refine ⟨x :: pre, post, by rw [List.cons_append, ← hs], ?_, hnm⟩
      have hstep : bytesLastIndex (x :: xs) c = bytesLastIndex xs c + 1 := by
        simp [bytesLastIndex, hr]
      rw [hstep, ← hlen]
      simp
    · have hnm : c ∉ xs := fun hm => hr (bytesLastIndex_mem xs c hm)
      by_cases hx : x = c
      · subst hx
        refine ⟨[], xs, rfl, ?_, hnm⟩
        simp [bytesLastIndex, bytesLastIndex_not_mem xs _ hnm]
      · have hneg : bytesLastIndex (x :: xs) c = -1 := by
          simp [bytesLastIndex, bytesLastIndex_not_mem xs c hnm, hx]
        rw [hneg] at h
        omega

theorem bytesIndex_le_append (pre post : List Char) (c : Char) :
    0 ≤ bytesIndex (pre ++ c :: post) c ∧ bytesIndex (pre ++ c :: post) c ≤ pre.length := by
  induction pre with
  | nil => simp [bytesIndex]
  | cons x pre' ih =>
    rw [List.cons_append]
    by_cases hx : x = c
    · simp [bytesIndex, hx]
      omega
    · obtain ⟨h1, h2⟩ := ih
      have hr : ¬ bytesIndex (pre' ++ c :: post) c < 0 := by omega
      simp [bytesIndex, hx, hr]
      omega

theorem le_bytesLastIndex_append (pre post : List Char) (c : Char) :
    (pre.length : Int) ≤ bytesLastIndex (pre ++ c :: post) c := by
  induction pre with
  | nil =>
    by_cases hr : 0 ≤ bytesLastIndex post c
    · simp [bytesLastIndex, hr]
      omega
    · simp [bytesLastIndex, hr]
  | cons x pre' ih =>
    rw [List.cons_append]
    have h0 : 0 ≤ bytesLastIndex (pre' ++ c :: post) c := le_trans (by omega) ih
    simp [bytesLastIndex, h0]
    omega

theorem extractPayload_eq (data : List Char) :
    extractPayload data =
      if bytesLastIndex data ')' > bytesIndex data '(' ∧ bytesIndex data '(' > -1
      then some (slice data (bytesIndex data '(' + 1).toNat (bytesLastIndex data ')').toNat)
      else none := rfl

theorem extractPayload_some_iff (data mid : List Char) :
    extractPayload data = some mid ↔
      ∃ pre post, data = pre ++ '(' :: (mid ++ ')' :: post) ∧ '(' ∉ pre ∧ ')' ∉ post := by
  constructor
  · intro h
    rw [extractPayload_eq] at h
    by_cases hcond : bytesLastIndex data ')' > bytesIndex data '(' ∧ bytesIndex data '(' > -1
    · rw [if_pos hcond] at h
      have h' := Option.some.inj h
      obtain ⟨hes, hs⟩ := hcond
      have hs0 : 0 ≤ bytesIndex data '(' := by omega
      have he0 : 0 ≤ bytesLastIndex data ')' := by omega
      obtain ⟨A, S, hA, hAlen, hAnm⟩ := bytesIndex_nonneg_decomp data '(' hs0
      obtain ⟨B, T, hB, hBlen, hBnm⟩ := bytesLastIndex_nonneg_decomp data ')' he0
      have hab : A.length + 1 ≤ B.length := by omega
      have ht1 : (bytesIndex data '(' + 1).toNat = A.length + 1 := by omega
      have ht2 : (bytesLastIndex data ')').toNat = B.length := by omega
      rw [ht1, ht2] at h'
      have htakeb : data.take B.length = B := by rw [hB]; exact List.take_left' rfl
      have htakea : data.take (A.length + 1) = A ++ ['('] := by
        rw [hA, show A ++ '(' :: S = (A ++ ['(']) ++ S by simp]
        exact List.take_left' (by simp)
      have hBsplit : B.take (A.length + 1) = A ++ ['('] := by
        rw [← htakeb, List.take_take, min_eq_left hab, htakea]
      have hmid : B.drop (A.length + 1) = mid := by
        unfold slice at h'
        rw [htakeb] at h'
        exact h'
      have hBeq : B = A ++ '(' :: mid :=
        calc B = B.take (A.length + 1) ++ B.drop (A.length + 1) :=
              (List.take_append_drop _ _).symm
          _ = (A ++ ['(']) ++ mid := by rw [hBsplit, hmid]
          _ = A ++ '(' :: mid := by simp
      refine ⟨A, T, ?_, hAnm, hBnm⟩
      rw [hB, hBeq]
      simp
    · rw [if_neg hcond] at h
      exact absurd h (by simp)
  · rintro ⟨pre, post, hdata, hpre, hpost⟩
    have hs : bytesIndex data '(' = pre.length := by
      rw [hdata]; exact bytesIndex_append pre _ '(' hpre
    have he : bytesLastIndex data ')' = (pre.length : Int) + 1 + mid.length := by
      rw [hdata, show pre ++ '(' :: (mid ++ ')' :: post) = (pre ++ '(' :: mid) ++ ')' :: post
        by simp]
      rw [bytesLastIndex_append _ post ')' hpost]
      simp
      omega
    rw [extractPayload_eq, hs, he, if_pos (by constructor <;> omega)]
    have ht1 : ((pre.length : Int) + 1).toNat = pre.length + 1 := by omega
    have ht2 : ((pre.length : Int) + 1 + mid.length).toNat = pre.length + 1 + mid.length := by
      omega
    rw [ht1, ht2]
    unfold slice
    rw [hdata, show pre ++ '(' :: (mid ++ ')' :: post) = (pre ++ '(' :: mid) ++ ')' :: post
      by simp]
    rw [List.take_left' (by simp; omega)]
    rw [show pre ++ '(' :: mid = (pre ++ ['(']) ++ mid by simp]
    rw [List.drop_left' (by simp)]

theorem extractPayload_none_iff (data : List Char) :
    extractPayload data = none ↔
      ¬∃ pre mid post, data = pre ++ '(' :: (mid ++ ')' :: post) := by
  constructor
  · rintro h ⟨pre, mid, post, hdata⟩
    have hdata2 : data = (pre ++ '(' :: mid) ++ ')' :: post := by rw [hdata]; simp
    have h1 := bytesIndex_le_append pre (mid ++ ')' :: post) '('
    rw [← hdata] at h1
    have h2 := le_bytesLastIndex_append (pre ++ '(' :: mid) post ')'
    rw [← hdata2] at h2
    have hlen : (pre ++ '(' :: mid).length = pre.length + 1 + mid.length := by
      simp
      omega
    rw [hlen] at h2
    have hcond : bytesLastIndex data ')' > bytesIndex data '(' ∧ bytesIndex data '(' > -1 := by
      push_cast at h2
      constructor <;> omega
    rw [extractPayload_eq, if_pos hcond] at h
    exact absurd h (by simp)
  · intro h
    cases he : extractPayload data with
    | none => rfl
    | some mid =>
      obtain ⟨pre, post, hdata, _, _⟩ := (extractPayload_some_iff data mid).mp he
      exact absurd ⟨pre, mid, post, hdata⟩ h

theorem fetch_jsonp_error_iff (decode : List Char → Option (List Package)) (data : List Char) :
    fetchLatestTarVersions decode data = Except.error FeedError.jsonpFormat ↔
      extractPayload data = none := by
  unfold fetchLatestTarVersions
  cases he : extractPayload data with
  | none => simp
  | some payload =>
    cases hd : decode payload with
    | none => simp [hd]
    | some archives => simp [hd]

/-- C6: the JSONP unwrapping of a fetched body fails with the format
error exactly when the body admits no decomposition with a `(` strictly
before a `)` (no `(`, no `)`, or the last `)` at or before the first
`(`); on success the decoded payload is exactly the substring strictly
between the first `(` and the last `)` (the decomposition whose prefix
has no `(` and whose suffix has no `)`); and a decoder failure on that
payload is also an error. -/
theorem c6_jsonp_parse :
    ∀ (decode : List Char → Option (List Package)) (data : List Char),
      (fetchLatestTarVersions decode data = Except.error FeedError.jsonpFormat ↔
        ¬∃ pre mid post, data = pre ++ '(' :: (mid ++ ')' :: post)) ∧
      (∀ mid, extractPayload data = some mid ↔
        ∃ pre post, data = pre ++ '(' :: (mid ++ ')' :: post) ∧ '(' ∉ pre ∧ ')' ∉ post) ∧
      (∀ mid, extractPayload data = some mid → decode mid = none →
        fetchLatestTarVersions decode data = Except.error FeedError.decodeFailure) := by
  intro decode data
  refine ⟨?_, fun mid => extractPayload_some_iff data mid, ?_⟩
  · rw [fetch_jsonp_error_iff]
    exact extractPayload_none_iff data
  · intro mid h1 h2
    unfold fetchLatestTarVersions
    simp [h1, h2]

/-- C6 (witness): the characterization applied to the concrete body
`"(x)"` with a decoder that rejects every payload. -/
theorem c6_jsonp_parse_app :
    fetchLatestTarVersions (fun _ => (none : Option (List Package))) "(x)".toList =
      Except.error FeedError.decodeFailure :=
  (c6_jsonp_parse (fun _ => none) "(x)".toList).2.2 ['x'] (by decide) rfl

end CrowdUpdate
